import Mathlib

/-!
Shallow embedding of `chunk_world.py`: the chunk-lifecycle core of the
world-chunking demo.  The registry is modelled by its key set (chunk content
is a pure function of the coordinates, so the key set determines the
registry), the two pending queues by lists of coordinates, and the float
arithmetic of the hex-offset region selector by exact rationals (all
quantities involved are small dyadic/centesimal values, far from the
comparison threshold, so the rational model agrees with the float code on
every comparison the claims touch).
-/

namespace ChunkWorld

/-- Constant `CHUNK_SIZE = 100` from the source constants. -/
def CHUNK_SIZE : ℚ := 100

/-- The admission test of the hex-like pattern in
`ChunkManager.get_required_chunks` (source lines 88–107): a candidate offset
`(dx, dy)` from the center is admitted when its effective squared distance is
at most `(radius + 0.35)^2`.  Rows whose parity differs from the center row
carry a half-cell penalty whose sign depends on the center row's parity. -/
def hexAllowed (center_y radius dx dy : ℤ) : Bool :=
  -- threshold_sq = (radius + 0.35) ** 2
  let threshold_sq : ℚ := ((radius : ℚ) + 35/100) ^ 2
  -- x_offset = 0.5 if (chunk_y % 2) != (center_y % 2) else 0, chunk_y = center_y + dy
  let x_offset : ℚ := if (center_y + dy) % 2 ≠ center_y % 2 then 1/2 else 0
  -- eff_dx = dx + x_offset if center_y even else dx - x_offset
  let eff_dx : ℚ := if center_y % 2 = 0 then (dx : ℚ) + x_offset else (dx : ℚ) - x_offset
  -- dist_sq = eff_dx * eff_dx + dy * dy;  admitted iff dist_sq <= threshold_sq
  decide (eff_dx * eff_dx + (dy : ℚ) * (dy : ℚ) ≤ threshold_sq)

/-- Integer form of `hexAllowed`: the same comparison with both sides scaled by
`400 = 20²`, staying in `ℤ`.  Used to evaluate the selector on concrete
inputs (the rational form is proved equal to it below). -/
def intAllowed (center_y radius dx dy : ℤ) : Bool :=
  let x_off20 : ℤ := if (center_y + dy) % 2 ≠ center_y % 2 then 10 else 0
  let e : ℤ := if center_y % 2 = 0 then 20 * dx + x_off20 else 20 * dx - x_off20
  decide (e * e + (20 * dy) * (20 * dy) ≤ (20 * radius + 7) * (20 * radius + 7))

/-- Lexicographic order on coordinates, used only to enumerate a Python set
into a list when queueing; no theorem depends on the enumeration order. -/
def lexLe (a b : ℤ × ℤ) : Prop := a.1 < b.1 ∨ (a.1 = b.1 ∧ a.2 ≤ b.2)

instance : DecidableRel lexLe := fun a b => by unfold lexLe; infer_instance

instance : IsTrans (ℤ × ℤ) lexLe := ⟨by intro a b c hab hbc; unfold lexLe at *; omega⟩

instance : IsAntisymm (ℤ × ℤ) lexLe := by
  refine ⟨fun a b hab hba => ?_⟩
  unfold lexLe at *
  have h1 : a.1 = b.1 := by omega
  have h2 : a.2 = b.2 := by omega
  exact Prod.ext h1 h2

instance : IsTotal (ℤ × ℤ) lexLe := ⟨by intro a b; unfold lexLe; omega⟩

/-- Enumerate a finite coordinate set into a list (Python set iteration). -/
def enumList (s : Finset (ℤ × ℤ)) : List (ℤ × ℤ) := s.sort lexLe

/-- The set of admitted offsets `(dx, dy)` of the hex branch, before
translation by the center. -/
def hexBase (center_y : ℤ) (padding : ℕ) : Finset (ℤ × ℤ) :=
  let radius : ℤ := (padding : ℤ) + 1
  (Finset.Icc (-radius) radius ×ˢ Finset.Icc (-radius) radius).filter
    (fun d => hexAllowed center_y radius d.1 d.2 = true)

/-- State of `ChunkManager`: registry key set, the two FIFO queues and the
stored required set. -/
@[ext]
structure ChunkManager where
  chunks : Finset (ℤ × ℤ)
  load_queue : List (ℤ × ℤ)
  unload_queue : List (ℤ × ℤ)
  required : Finset (ℤ × ℤ)

/-- Constructor `ChunkManager.__init__`: everything empty. -/
def ChunkManager.init : ChunkManager := ⟨∅, [], [], ∅⟩

/-- Method `ChunkManager.get_required_chunks` (source lines 64–110).  The method
reads none of the manager's state (`self` is unused in its body); the square
branch is the full `[-radius, radius]` offset square around the center, the
hex branch filters that square through `hexAllowed`. -/
def ChunkManager.get_required_chunks (self : ChunkManager) (center_x center_y : ℤ)
    (hex_mode : Bool) (padding : ℕ) : Finset (ℤ × ℤ) :=
  let radius : ℤ := (padding : ℤ) + 1
  if hex_mode = false then
    (Finset.Icc (-radius) radius ×ˢ Finset.Icc (-radius) radius).image
      (fun d => (center_x + d.1, center_y + d.2))
  else
    (hexBase center_y padding).image (fun d => (center_x + d.1, center_y + d.2))

/-- Method `ChunkManager.update` (source lines 112–146).  Computes the required set,
the two diffs, and either queues operations (slowmo) or applies them at once.
Appending a Python-set iteration is modelled by `enumList`; only the
membership of the appended batch, never its internal order, is used by any
theorem below. -/
def ChunkManager.update (m : ChunkManager) (player_chunk_x player_chunk_y : ℤ)
    (hex_mode slowmo : Bool) (padding : ℕ) : ChunkManager :=
  let required := m.get_required_chunks player_chunk_x player_chunk_y hex_mode padding
  let current := m.chunks
  let to_unload := current \ required
  let to_load := required \ current
  if slowmo then
    -- add to unload queue (if not already queued)
    let uq := m.unload_queue ++ (enumList to_unload).filter (fun c => decide (c ∉ m.unload_queue))
    -- add to load queue (if not already queued or loaded)
    let lq := m.load_queue ++
      (enumList to_load).filter (fun c => decide (c ∉ m.load_queue ∧ c ∉ m.chunks))
    -- cancel loads no longer needed / unloads needed again
    { chunks := m.chunks
      load_queue := lq.filter (fun c => decide (c ∈ required))
      unload_queue := uq.filter (fun c => decide (c ∉ required))
      required := required }
  else
    -- immediate mode: clear queues, delete to_unload, create to_load
    { chunks := (m.chunks \ to_unload) ∪ to_load
      load_queue := []
      unload_queue := []
      required := required }

/-- The observable outcome of one `process_slowmo_tick` call (the returned
description string, abstracted). -/
inductive TickResult where
  | unloaded : ℤ × ℤ → TickResult
  | loaded : ℤ × ℤ → TickResult
deriving DecidableEq

/-- Method `ChunkManager.process_slowmo_tick` (source lines 148–161): pop the head
of the unload queue if non-empty (deleting the chunk when present), else the
head of the load queue (creating the chunk when absent), else do nothing. -/
def ChunkManager.process_slowmo_tick (m : ChunkManager) : ChunkManager × Option TickResult :=
  match m.unload_queue with
  | c :: rest =>
    if c ∈ m.chunks then
      ({ m with unload_queue := rest, chunks := m.chunks.erase c }, some (.unloaded c))
    else
      ({ m with unload_queue := rest }, none)
  | [] =>
    match m.load_queue with
    | c :: rest =>
      if c ∈ m.chunks then
        ({ m with load_queue := rest }, none)
      else
        ({ m with load_queue := rest, chunks := insert c m.chunks }, some (.loaded c))
    | [] => (m, none)

/-- Type `Player`: continuous 2D world position (source lines 180–201); floats
modelled by exact rationals. -/
structure Player where
  x : ℚ
  y : ℚ

/-- Method `Player.get_chunk_coords` (source lines 187–197): `chunk_y` by floor
division of `y`; in hex mode on odd rows the x input is first shifted left by
half a cell before the floor division for `chunk_x`. -/
def Player.get_chunk_coords (p : Player) (hex_mode : Bool) : ℤ × ℤ :=
  let chunk_y : ℤ := ⌊p.y / CHUNK_SIZE⌋
  let x_adjusted : ℚ :=
    if hex_mode = true ∧ chunk_y % 2 ≠ 0 then p.x - CHUNK_SIZE * (1/2) else p.x
  (⌊x_adjusted / CHUNK_SIZE⌋, chunk_y)

/-- Method `Game.chunk_world_pos` (source lines 337–344): world position of a
chunk's top-left corner; in hex mode odd rows are shifted right by half a
cell.  The method reads only `self.hex_mode` from the game, passed here as a
flag. -/
def chunk_world_pos (hex_mode : Bool) (chunk_x chunk_y : ℤ) : ℚ × ℚ :=
  let world_x : ℚ :=
    if hex_mode = true ∧ chunk_y % 2 ≠ 0 then (chunk_x : ℚ) * CHUNK_SIZE + CHUNK_SIZE * (1/2)
    else (chunk_x : ℚ) * CHUNK_SIZE
  (world_x, (chunk_y : ℚ) * CHUNK_SIZE)

/-- The slowmo-scheduler slice of `Game` state (source lines 225–228, 291–301):
mode flag, frame counter, interval, and the owned manager. -/
structure Game where
  slowmo_mode : Bool
  slowmo_frame_counter : ℕ
  slowmo_interval : ℕ
  chunk_manager : ChunkManager

/-- Method `Game.process_slowmo` (source lines 291–301): in slowmo mode, increment
the frame counter; once it reaches the interval, reset it to zero and process
exactly one queued operation. -/
def Game.process_slowmo (g : Game) : Game × Option TickResult :=
  if g.slowmo_mode = false then (g, none)
  else
    let counter := g.slowmo_frame_counter + 1
    if g.slowmo_interval ≤ counter then
      let t := g.chunk_manager.process_slowmo_tick
      ({ g with slowmo_frame_counter := 0, chunk_manager := t.1 }, t.2)
    else
      ({ g with slowmo_frame_counter := counter }, none)

/-- Whether a `process_slowmo` step invokes the queue processor. -/
def Game.fires (g : Game) : Bool :=
  g.slowmo_mode && decide (g.slowmo_interval ≤ g.slowmo_frame_counter + 1)

/-- Number of steps, among the next `n` control steps, on which the scheduler
invokes the queue processor (each such invocation applies at most one
operation). -/
def Game.stepsFired (g : Game) : ℕ → ℕ
  | 0 => 0
  | n + 1 => (if g.fires then 1 else 0) + Game.stepsFired (g.process_slowmo).1 n

/-- The queue/registry invariant maintained by every reachable manager state:
no duplicates inside a queue, queued unloads are resident, queued loads are
absent. -/
def QueueInv (m : ChunkManager) : Prop :=
  m.load_queue.Nodup ∧ m.unload_queue.Nodup ∧
  (∀ c ∈ m.unload_queue, c ∈ m.chunks) ∧
  (∀ c ∈ m.load_queue, c ∉ m.chunks)

/-- Manager states reachable from the initial empty state by any sequence of
reconciles and slowmo ticks. -/
inductive Reachable : ChunkManager → Prop where
  | init : Reachable ChunkManager.init
  | update (m : ChunkManager) (px py : ℤ) (hm slowmo : Bool) (p : ℕ) :
      Reachable m → Reachable (m.update px py hm slowmo p)
  | tick (m : ChunkManager) : Reachable m → Reachable m.process_slowmo_tick.1

/-! ## Theorems -/

theorem mem_enumList {s : Finset (ℤ × ℤ)} {a : ℤ × ℤ} : a ∈ enumList s ↔ a ∈ s :=
  Finset.mem_sort _

theorem enumList_nodup (s : Finset (ℤ × ℤ)) : (enumList s).Nodup :=
  Finset.sort_nodup _ _

/-- Scaling a rational inequality by 400 to land in the integers. -/
theorem scale400 {a b : ℚ} {A B : ℤ} (ha : 400 * a = (A : ℚ)) (hb : 400 * b = (B : ℚ)) :
    a ≤ b ↔ A ≤ B := by
  constructor
  · intro h
    have h' : 400 * a ≤ 400 * b := by linarith
    rw [ha, hb] at h'
    exact_mod_cast h'
  · intro h
    have h' : (A : ℚ) ≤ (B : ℚ) := by exact_mod_cast h
    rw [← ha, ← hb] at h'
    linarith

theorem hexAllowed_eq_intAllowed (cy r dx dy : ℤ) : hexAllowed cy r dx dy = intAllowed cy r dx dy := by
  simp only [hexAllowed, intAllowed]
  split_ifs <;>
    exact decide_eq_decide.mpr (scale400 (by push_cast; ring) (by push_cast; ring))

/-- The test `hexAllowed` depends on the center row only through its parity. -/
theorem hexAllowed_emod (cy r dx dy : ℤ) : hexAllowed (cy % 2) r dx dy = hexAllowed cy r dx dy := by
  have h1 : ((cy % 2) + dy) % 2 = (cy + dy) % 2 := by
    rw [Int.add_emod, Int.emod_emod_of_dvd cy dvd_rfl, ← Int.add_emod]
  have h2 : (cy % 2) % 2 = cy % 2 := Int.emod_emod_of_dvd cy dvd_rfl
  simp only [hexAllowed, h1, h2]

/-- So does the whole hex offset pattern. -/
theorem hexBase_emod (cy : ℤ) (p : ℕ) : hexBase cy p = hexBase (cy % 2) p := by
  unfold hexBase
  exact Finset.filter_congr fun d _ => by rw [hexAllowed_emod]

/-- Translating offsets to absolute cells is injective. -/
theorem translate_injective (cx cy : ℤ) :
    Function.Injective (fun d : ℤ × ℤ => (cx + d.1, cy + d.2)) := by
  intro a b h
  simp only [Prod.mk.injEq] at h
  have h1 : a.1 = b.1 := by omega
  have h2 : a.2 = b.2 := by omega
  exact Prod.ext h1 h2

/-- The selector reads nothing from the manager. -/
theorem get_required_state_free (m m' : ChunkManager) (cx cy : ℤ) (hm : Bool) (p : ℕ) :
    m.get_required_chunks cx cy hm p = m'.get_required_chunks cx cy hm p := rfl

/-- Hex branch of the selector, unfolded. -/
theorem get_required_hex (m : ChunkManager) (cx cy : ℤ) (p : ℕ) :
    m.get_required_chunks cx cy true p =
      (hexBase cy p).image (fun d => (cx + d.1, cy + d.2)) := rfl

/-- Square branch of the selector, unfolded. -/
theorem get_required_square (m : ChunkManager) (cx cy : ℤ) (p : ℕ) :
    m.get_required_chunks cx cy false p =
      (Finset.Icc (-((p : ℤ) + 1)) ((p : ℤ) + 1) ×ˢ Finset.Icc (-((p : ℤ) + 1)) ((p : ℤ) + 1)).image
        (fun d => (cx + d.1, cy + d.2)) := rfl

theorem hexBase_card_even : (hexBase 0 0).card = 7 := by
  simp only [hexBase, hexAllowed_eq_intAllowed]
  decide

theorem hexBase_card_odd : (hexBase 1 0).card = 7 := by
  simp only [hexBase, hexAllowed_eq_intAllowed]
  decide

/-- The center offset `(0,0)` always passes the hex admission test. -/
theorem hexAllowed_center (cy r : ℤ) : hexAllowed cy r 0 0 = true := by
  simp only [hexAllowed, add_zero, ne_eq, not_true_eq_false, if_false, Int.cast_zero,
    ite_self, sub_zero, mul_zero, zero_mul, zero_add, decide_eq_true_eq]
  positivity

/-- Claim C5: for every center (either parity of the center row), the offset
(hex-like) selector at padding 0 returns exactly 7 cells, and a cell at
offset `(dx, dy)` inside the bounding square is admitted exactly by the
`hexAllowed` distance test (`eff_dx² + dy² ≤ (radius + 0.35)²`, non-strict,
with the parity-dependent half-cell penalty). -/
theorem offset_padding0_footprint (m : ChunkManager) (cx cy : ℤ) :
    (m.get_required_chunks cx cy true 0).card = 7 ∧
    ∀ dx dy : ℤ, ((cx + dx, cy + dy) ∈ m.get_required_chunks cx cy true 0 ↔
      dx ∈ Finset.Icc (-1 : ℤ) 1 ∧ dy ∈ Finset.Icc (-1 : ℤ) 1 ∧ hexAllowed cy 1 dx dy = true) := by
  constructor
  · rw [get_required_hex, Finset.card_image_of_injective _ (translate_injective cx cy),
      hexBase_emod]
    rcases Int.emod_two_eq_zero_or_one cy with h | h <;> rw [h]
    · exact hexBase_card_even
    · exact hexBase_card_odd
  · intro dx dy
    rw [get_required_hex]
    constructor
    · intro hmem
      rw [Finset.mem_image] at hmem
      obtain ⟨d, hd, heq⟩ := hmem
      have hd' : d = (dx, dy) := translate_injective cx cy heq
      subst hd'
      rw [hexBase, Finset.mem_filter, Finset.mem_product] at hd
      have hr : ((0 : ℕ) : ℤ) + 1 = 1 := by norm_num
      rw [hr] at hd
      exact ⟨hd.1.1, hd.1.2, hd.2⟩
    · rintro ⟨h1, h2, h3⟩
      rw [Finset.mem_image]
      refine ⟨(dx, dy), ?_, rfl⟩
      rw [hexBase, Finset.mem_filter, Finset.mem_product]
      have hr : ((0 : ℕ) : ℤ) + 1 = 1 := by norm_num
      rw [hr]
      exact ⟨⟨h1, h2⟩, h3⟩

/-- Claim C7: the selector's result always contains the center, for both
topologies and every padding, and it is a pure function of
`(center, topology, padding)`: it does not depend on the manager state. -/
theorem required_contains_center (m : ChunkManager) (cx cy : ℤ) (hm : Bool) (p : ℕ) :
    (cx, cy) ∈ m.get_required_chunks cx cy hm p ∧
    ∀ m' : ChunkManager, m.get_required_chunks cx cy hm p = m'.get_required_chunks cx cy hm p := by
  refine ⟨?_, fun m' => get_required_state_free m m' cx cy hm p⟩
  cases hm
  · rw [get_required_square, Finset.mem_image]
    refine ⟨(0, 0), ?_, by simp⟩
    rw [Finset.mem_product]
    constructor <;> rw [Finset.mem_Icc] <;> constructor <;> omega
  · rw [get_required_hex, Finset.mem_image]
    refine ⟨(0, 0), ?_, by simp⟩
    rw [hexBase, Finset.mem_filter, Finset.mem_product]
    refine ⟨⟨?_, ?_⟩, hexAllowed_center cy _⟩ <;> rw [Finset.mem_Icc] <;> constructor <;> omega

/-- Claim C8: the square-topology selector returns exactly the translated
Cartesian square `[-r, r] × [-r, r]`, `r = padding + 1`, so its cardinality
is `(2(padding+1)+1)²`. -/
theorem square_required_exact (m : ChunkManager) (cx cy : ℤ) (p : ℕ) :
    m.get_required_chunks cx cy false p =
      Finset.Icc (cx - ((p : ℤ) + 1)) (cx + ((p : ℤ) + 1)) ×ˢ
        Finset.Icc (cy - ((p : ℤ) + 1)) (cy + ((p : ℤ) + 1)) ∧
    (m.get_required_chunks cx cy false p).card = (2 * (p + 1) + 1) ^ 2 := by
  have hset : m.get_required_chunks cx cy false p =
      Finset.Icc (cx - ((p : ℤ) + 1)) (cx + ((p : ℤ) + 1)) ×ˢ
        Finset.Icc (cy - ((p : ℤ) + 1)) (cy + ((p : ℤ) + 1)) := by
    rw [get_required_square]
    ext a
    simp only [Finset.mem_image, Finset.mem_product, Finset.mem_Icc, Prod.ext_iff]
    constructor
    · rintro ⟨d, ⟨⟨hd1, hd2⟩, hd3, hd4⟩, he1, he2⟩
      constructor <;> constructor <;> omega
    · rintro ⟨⟨h1, h2⟩, h3, h4⟩
      refine ⟨(a.1 - cx, a.2 - cy), ⟨⟨?_, ?_⟩, ?_, ?_⟩, ?_, ?_⟩ <;> simp <;> omega
  refine ⟨hset, ?_⟩
  rw [hset, Finset.card_product, Int.card_Icc, Int.card_Icc]
  have h1 : (cx + ((p : ℤ) + 1) + 1 - (cx - ((p : ℤ) + 1))).toNat = 2 * p + 3 := by omega
  have h2 : (cy + ((p : ℤ) + 1) + 1 - (cy - ((p : ℤ) + 1))).toNat = 2 * p + 3 := by omega
  rw [h1, h2]
  ring

theorem update_false_eq (m : ChunkManager) (px py : ℤ) (hm : Bool) (p : ℕ) :
    m.update px py hm false p =
      { chunks := (m.chunks \ (m.chunks \ m.get_required_chunks px py hm p)) ∪
          (m.get_required_chunks px py hm p \ m.chunks)
        load_queue := []
        unload_queue := []
        required := m.get_required_chunks px py hm p } := rfl

theorem update_true_eq (m : ChunkManager) (px py : ℤ) (hm : Bool) (p : ℕ) :
    m.update px py hm true p =
      { chunks := m.chunks
        load_queue := (m.load_queue ++
            (enumList (m.get_required_chunks px py hm p \ m.chunks)).filter
              (fun c => decide (c ∉ m.load_queue ∧ c ∉ m.chunks))).filter
          (fun c => decide (c ∈ m.get_required_chunks px py hm p))
        unload_queue := (m.unload_queue ++
            (enumList (m.chunks \ m.get_required_chunks px py hm p)).filter
              (fun c => decide (c ∉ m.unload_queue))).filter
          (fun c => decide (c ∉ m.get_required_chunks px py hm p))
        required := m.get_required_chunks px py hm p } := rfl

/-- Removing the unload diff and adding the load diff lands exactly on the
required set. -/
theorem diff_union_eq (s R : Finset (ℤ × ℤ)) : (s \ (s \ R)) ∪ (R \ s) = R := by
  ext x
  simp only [Finset.mem_union, Finset.mem_sdiff]
  tauto

/-- Claim C1: an immediate-mode reconcile makes the registry key set exactly
the required set and empties both queues; a second immediate reconcile with
the same unchanged cell is a no-op, and its `to_unload`/`to_load` diffs are
both empty (no create or destroy action happens the second time). -/
theorem immediate_reconcile_exact (m : ChunkManager) (px py : ℤ) (hm : Bool) (p : ℕ) :
    (m.update px py hm false p).chunks = m.get_required_chunks px py hm p ∧
    (m.update px py hm false p).load_queue = [] ∧
    (m.update px py hm false p).unload_queue = [] ∧
    (m.update px py hm false p).chunks \ m.get_required_chunks px py hm p = ∅ ∧
    m.get_required_chunks px py hm p \ (m.update px py hm false p).chunks = ∅ ∧
    (m.update px py hm false p).update px py hm false p = m.update px py hm false p := by
  have hch : (m.update px py hm false p).chunks = m.get_required_chunks px py hm p := by
    rw [update_false_eq]
    exact diff_union_eq m.chunks (m.get_required_chunks px py hm p)
  refine ⟨hch, rfl, rfl, by rw [hch, Finset.sdiff_self], by rw [hch, Finset.sdiff_self], ?_⟩
  apply ChunkManager.ext
  · rw [update_false_eq (m.update px py hm false p),
      get_required_state_free (m.update px py hm false p) m px py hm p, hch]
    exact diff_union_eq _ _
  · rfl
  · rfl
  · rw [update_false_eq (m.update px py hm false p),
      get_required_state_free (m.update px py hm false p) m px py hm p, update_false_eq]

/-- Claim C9: a deferred-mode reconcile never touches the registry: no chunk
is created or destroyed; only the queues and the stored required set change. -/
theorem deferred_reconcile_registry_unchanged (m : ChunkManager) (px py : ℤ)
    (hm : Bool) (p : ℕ) : (m.update px py hm true p).chunks = m.chunks := by
  rw [update_true_eq]

/-- Claim C2: after any deferred-mode reconcile, every queued load is in the
current required set, no queued unload is in the current required set, and
hence the two queues are disjoint. -/
theorem deferred_queue_cancellation (m : ChunkManager) (px py : ℤ) (hm : Bool) (p : ℕ) :
    (∀ c ∈ (m.update px py hm true p).load_queue,
        c ∈ (m.update px py hm true p).required) ∧
    (∀ c ∈ (m.update px py hm true p).unload_queue,
        c ∉ (m.update px py hm true p).required) ∧
    (∀ c, ¬(c ∈ (m.update px py hm true p).load_queue ∧
        c ∈ (m.update px py hm true p).unload_queue)) ∧
    (m.update px py hm true p).required = m.get_required_chunks px py hm p := by
  have hload : ∀ c ∈ (m.update px py hm true p).load_queue,
      c ∈ (m.update px py hm true p).required := by
    rw [update_true_eq]
    intro c hc
    rw [List.mem_filter] at hc
    exact of_decide_eq_true hc.2
  have hunload : ∀ c ∈ (m.update px py hm true p).unload_queue,
      c ∉ (m.update px py hm true p).required := by
    rw [update_true_eq]
    intro c hc
    rw [List.mem_filter] at hc
    exact of_decide_eq_true hc.2
  exact ⟨hload, hunload, fun c ⟨h1, h2⟩ => hunload c h2 (hload c h1), by rw [update_true_eq]⟩

theorem deferred_queue_cancellation_witness :
    (ChunkManager.init.update 0 0 false true 0).required =
      ChunkManager.init.get_required_chunks 0 0 false 0 :=
  (deferred_queue_cancellation ChunkManager.init 0 0 false 0).2.2.2

/-- Claim C3: `process_slowmo_tick` always pops the head of the unload queue
when that queue is non-empty (leaving the load queue untouched and never
reporting a load), pops the head of the load queue only when the unload
queue is empty, and does nothing at all when both queues are empty. -/
theorem tick_unload_priority (m : ChunkManager) :
    (∀ c rest, m.unload_queue = c :: rest →
      m.process_slowmo_tick.1.unload_queue = rest ∧
      m.process_slowmo_tick.1.load_queue = m.load_queue ∧
      m.process_slowmo_tick.1.chunks = m.chunks.erase c ∧
      m.process_slowmo_tick.1.required = m.required ∧
      ∀ c', m.process_slowmo_tick.2 ≠ some (TickResult.loaded c')) ∧
    (∀ c rest, m.unload_queue = [] → m.load_queue = c :: rest →
      m.process_slowmo_tick.1.load_queue = rest ∧
      m.process_slowmo_tick.1.unload_queue = [] ∧
      m.process_slowmo_tick.1.chunks = insert c m.chunks ∧
      m.process_slowmo_tick.1.required = m.required) ∧
    (m.unload_queue = [] → m.load_queue = [] → m.process_slowmo_tick = (m, none)) := by
  obtain ⟨ch, lq, uq, req⟩ := m
  refine ⟨?_, ?_, ?_⟩
  · intro c rest h
    simp only at h
    subst h
    simp only [ChunkManager.process_slowmo_tick]
    by_cases hc : c ∈ ch
    · simp [hc]
    · simp [hc, Finset.erase_eq_of_not_mem hc]
  · intro c rest h1 h2
    simp only at h1 h2
    subst h1
    subst h2
    simp only [ChunkManager.process_slowmo_tick]
    by_cases hc : c ∈ ch
    · simp [hc, Finset.insert_eq_self.mpr hc]
    · simp [hc]
  · intro h1 h2
    simp only at h1 h2
    subst h1
    subst h2
    rfl

theorem tick_unload_priority_witness :
    (ChunkManager.mk {(0, 0)} [(1, 1)] [(0, 0)] ∅).process_slowmo_tick.1.unload_queue = [] ∧
    (ChunkManager.mk {(0, 0)} [(1, 1)] [(0, 0)] ∅).process_slowmo_tick.1.load_queue = [(1, 1)] ∧
    (ChunkManager.mk {(0, 0)} [(1, 1)] [(0, 0)] ∅).process_slowmo_tick.1.chunks =
      ({(0, 0)} : Finset (ℤ × ℤ)).erase (0, 0) ∧
    (ChunkManager.mk {(0, 0)} [(1, 1)] [(0, 0)] ∅).process_slowmo_tick.1.required = ∅ := by
  have h := (tick_unload_priority (ChunkManager.mk {(0, 0)} [(1, 1)] [(0, 0)] ∅)).1 (0, 0) [] rfl
  exact ⟨h.1, h.2.1, h.2.2.1, h.2.2.2.1⟩

theorem queueInv_init : QueueInv ChunkManager.init := by
  refine ⟨List.nodup_nil, List.nodup_nil, ?_, ?_⟩ <;> intro c hc <;>
    simp [ChunkManager.init] at hc

theorem queueInv_update (m : ChunkManager) (px py : ℤ) (hm slowmo : Bool) (p : ℕ)
    (h : QueueInv m) : QueueInv (m.update px py hm slowmo p) := by
  obtain ⟨hln, hun, hures, hlabs⟩ := h
  cases slowmo
  · rw [update_false_eq]
    refine ⟨List.nodup_nil, List.nodup_nil, ?_, ?_⟩ <;> intro c hc <;> simp at hc
  · rw [update_true_eq]
    refine ⟨?_, ?_, ?_, ?_⟩
    · apply List.Nodup.filter
      rw [List.nodup_append]
      refine ⟨hln, List.Nodup.filter _ (enumList_nodup _), ?_⟩
      intro a ha hb
      rw [List.mem_filter] at hb
      exact (of_decide_eq_true hb.2).1 ha
    · apply List.Nodup.filter
      rw [List.nodup_append]
      refine ⟨hun, List.Nodup.filter _ (enumList_nodup _), ?_⟩
      intro a ha hb
      rw [List.mem_filter] at hb
      exact of_decide_eq_true hb.2 ha
    · intro c hc
      rw [List.mem_filter, List.mem_append] at hc
      rcases hc.1 with hq | hnew
      · exact hures c hq
      · rw [List.mem_filter] at hnew
        exact (Finset.mem_sdiff.mp (mem_enumList.mp hnew.1)).1
    · intro c hc
      rw [List.mem_filter, List.mem_append] at hc
      rcases hc.1 with hq | hnew
      · exact hlabs c hq
      · rw [List.mem_filter] at hnew
        exact (of_decide_eq_true hnew.2).2

theorem queueInv_tick (m : ChunkManager) (h : QueueInv m) :
    QueueInv m.process_slowmo_tick.1 := by
  obtain ⟨ch, lq, uq, req⟩ := m
  simp only [QueueInv] at h
  obtain ⟨hln, hun, hures, hlabs⟩ := h
  simp only [ChunkManager.process_slowmo_tick]
  cases uq with
  | cons c rest =>
    have hcrest : c ∉ rest := (List.nodup_cons.mp hun).1
    have hrest : rest.Nodup := (List.nodup_cons.mp hun).2
    by_cases hc : c ∈ ch
    · simp only [if_pos hc]
      refine ⟨hln, hrest, ?_, ?_⟩
      · intro d hd
        refine Finset.mem_erase.mpr ⟨?_, hures d (List.mem_cons_of_mem c hd)⟩
        intro he
        exact hcrest (he ▸ hd)
      · intro d hd hmem
        exact hlabs d hd (Finset.mem_of_mem_erase hmem)
    · simp only [if_neg hc]
      exact ⟨hln, hrest, fun d hd => hures d (List.mem_cons_of_mem c hd), hlabs⟩
  | nil =>
    cases lq with
    | cons c rest =>
      have hcrest : c ∉ rest := (List.nodup_cons.mp hln).1
      have hrest : rest.Nodup := (List.nodup_cons.mp hln).2
      by_cases hc : c ∈ ch
      · simp only [if_pos hc]
        refine ⟨hrest, List.nodup_nil, ?_, ?_⟩
        · intro d hd
          simp at hd
        · intro d hd
          exact hlabs d (List.mem_cons_of_mem c hd)
      · simp only [if_neg hc]
        refine ⟨hrest, List.nodup_nil, ?_, ?_⟩
        · intro d hd
          simp at hd
        · intro d hd hmem
          rcases Finset.mem_insert.mp hmem with he | hin
          · exact hcrest (he ▸ hd)
          · exact hlabs d (List.mem_cons_of_mem c hd) hin
    | nil => exact ⟨hln, hun, hures, hlabs⟩

/-- Claim C10: in every state reachable from the initial empty manager by
reconciles and ticks, the queues are duplicate-free, every queued unload is
resident, every queued load is absent; in particular the head of a non-empty
unload queue is always resident and the head of a non-empty load queue is
always absent, so the skip branches in `process_slowmo_tick` are never
taken. -/
theorem reachable_queue_sound (m : ChunkManager) (h : Reachable m) :
    QueueInv m ∧
    (∀ c rest, m.unload_queue = c :: rest → c ∈ m.chunks) ∧
    (∀ c rest, m.load_queue = c :: rest → c ∉ m.chunks) := by
  have hI : QueueInv m := by
    induction h with
    | init => exact queueInv_init
    | update m' px py hm sl p _ ih => exact queueInv_update m' px py hm sl p ih
    | tick m' _ ih => exact queueInv_tick m' ih
  refine ⟨hI, ?_, ?_⟩
  · intro c rest hq
    exact hI.2.2.1 c (by rw [hq]; exact List.mem_cons_self c rest)
  · intro c rest hq
    exact hI.2.2.2 c (by rw [hq]; exact List.mem_cons_self c rest)

theorem reachable_queue_sound_witness :
    QueueInv (ChunkManager.init.update 0 0 false true 0) :=
  (reachable_queue_sound (ChunkManager.init.update 0 0 false true 0)
    (Reachable.update ChunkManager.init 0 0 false true 0 Reachable.init)).1

/-- A non-firing control step: the counter just increments. -/
theorem process_slowmo_not_fire (g : Game) (hmode : g.slowmo_mode = true)
    (h : g.slowmo_frame_counter + 1 < g.slowmo_interval) :
    g.process_slowmo = ({ g with slowmo_frame_counter := g.slowmo_frame_counter + 1 }, none) := by
  simp only [Game.process_slowmo]
  rw [if_neg (by simp [hmode]), if_neg (by omega)]

/-- A firing control step: counter resets to zero and exactly one queue
operation is processed. -/
theorem process_slowmo_fire (g : Game) (hmode : g.slowmo_mode = true)
    (h : g.slowmo_interval ≤ g.slowmo_frame_counter + 1) :
    g.process_slowmo =
      ({ g with
          slowmo_frame_counter := 0
          chunk_manager := g.chunk_manager.process_slowmo_tick.1 },
        g.chunk_manager.process_slowmo_tick.2) := by
  simp only [Game.process_slowmo]
  rw [if_neg (by simp [hmode]), if_pos h]

theorem stepsFired_eq_one (k : ℕ) : ∀ g : Game, g.slowmo_mode = true →
    g.slowmo_frame_counter + (k + 1) = g.slowmo_interval → g.stepsFired (k + 1) = 1 := by
  induction k with
  | zero =>
    intro g hmode hcnt
    have hf : g.fires = true := by
      unfold Game.fires
      rw [hmode]
      simp only [Bool.true_and, decide_eq_true_eq]
      omega
    simp [Game.stepsFired, hf]
  | succ k ih =>
    intro g hmode hcnt
    have hnf : g.fires = false := by
      unfold Game.fires
      rw [hmode]
      simp only [Bool.true_and, decide_eq_false_iff_not]
      omega
    have hns := process_slowmo_not_fire g hmode (by omega)
    rw [Game.stepsFired, hnf, if_neg (by simp), hns]
    rw [ih { g with slowmo_frame_counter := g.slowmo_frame_counter + 1 } hmode (by simp; omega)]

/-- Claim C4: in deferred mode with interval `N ≥ 1`, a control step whose
incremented counter stays below `N` only increments the counter (no
operation applies); the step where the counter reaches `N` resets it to zero
and processes exactly one queued operation; and starting from counter 0,
exactly one of the next `N` steps invokes the queue processor (so exactly
one operation applies every `N` ticks, never more, with no catch-up
bursts). -/
theorem slowmo_rate_limit (g : Game) (N : ℕ) (hmode : g.slowmo_mode = true)
    (hN : g.slowmo_interval = N) (h1 : 1 ≤ N) :
    (g.slowmo_frame_counter + 1 < N →
      g.process_slowmo = ({ g with slowmo_frame_counter := g.slowmo_frame_counter + 1 }, none)) ∧
    (N ≤ g.slowmo_frame_counter + 1 →
      g.process_slowmo =
        ({ g with
            slowmo_frame_counter := 0
            chunk_manager := g.chunk_manager.process_slowmo_tick.1 },
          g.chunk_manager.process_slowmo_tick.2)) ∧
    (g.slowmo_frame_counter = 0 → g.stepsFired N = 1) := by
  refine ⟨fun h => process_slowmo_not_fire g hmode (by omega),
    fun h => process_slowmo_fire g hmode (by omega), fun h0 => ?_⟩
  obtain ⟨k, rfl⟩ : ∃ k, N = k + 1 := ⟨N - 1, by omega⟩
  exact stepsFired_eq_one k g hmode (by omega)

theorem slowmo_rate_limit_witness :
    (Game.mk true 0 2 ChunkManager.init).slowmo_mode = true ∧
    1 ≤ 2 ∧
    (Game.mk true 0 2 ChunkManager.init).stepsFired 2 = 1 :=
  ⟨rfl, by decide,
    (slowmo_rate_limit (Game.mk true 0 2 ChunkManager.init) 2 rfl rfl (by decide)).2.2 rfl⟩

/-- Floor division of a cell-interior position recovers the cell index. -/
theorem floor_cell (c : ℤ) (w : ℚ) (h0 : 0 ≤ w) (h1 : w < 100) :
    ⌊((c : ℚ) * 100 + w) / 100⌋ = c := by
  have h : ((c : ℚ) * 100 + w) / 100 = (c : ℚ) + w / 100 := by ring
  have hw : ⌊w / 100⌋ = 0 := by
    rw [Int.floor_eq_zero_iff, Set.mem_Ico]
    constructor
    · positivity
    · rw [div_lt_one (by norm_num : (0:ℚ) < 100)]
      exact h1
  rw [h, Int.floor_int_add, hw, add_zero]

/-- Claim C6: in hex mode the coordinate mapper inverts the rendering-side
placement: any position inside the drawn cell `(cx, cy)` — its top-left
corner `chunk_world_pos` plus an interior offset `(u, v)` with
`0 ≤ u, v < CHUNK_SIZE` — maps back to `(cx, cy)`; for odd rows the x input
is shifted left by half a cell before the floor division. -/
theorem hex_roundtrip (cx cy : ℤ) (u v : ℚ) (hu0 : 0 ≤ u) (hu1 : u < CHUNK_SIZE)
    (hv0 : 0 ≤ v) (hv1 : v < CHUNK_SIZE) :
    (Player.mk ((chunk_world_pos true cx cy).1 + u)
      ((chunk_world_pos true cx cy).2 + v)).get_chunk_coords true = (cx, cy) := by
  rw [CHUNK_SIZE] at hu1 hv1
  simp only [chunk_world_pos, Player.get_chunk_coords, CHUNK_SIZE, eq_self_iff_true, true_and]
  have hcy : ⌊((cy : ℚ) * 100 + v) / 100⌋ = cy := floor_cell cy v hv0 hv1
  rw [hcy]
  by_cases hodd : cy % 2 = 0
  · rw [if_neg (fun hcon => hcon hodd), if_neg (fun hcon => hcon hodd)]
    rw [floor_cell cx u hu0 hu1]
  · rw [if_pos hodd, if_pos hodd]
    rw [show ((cx : ℚ) * 100 + 100 * (1/2) + u - 100 * (1/2)) = ((cx : ℚ) * 100 + u) by ring]
    rw [floor_cell cx u hu0 hu1]

theorem hex_roundtrip_witness :
    (0 : ℚ) ≤ 0 ∧ (0 : ℚ) < CHUNK_SIZE ∧
    (Player.mk ((chunk_world_pos true 2 3).1 + 0)
      ((chunk_world_pos true 2 3).2 + 0)).get_chunk_coords true = (2, 3) :=
  ⟨le_refl 0, by decide,
    hex_roundtrip 2 3 0 0 (le_refl 0) (by decide) (le_refl 0) (by decide)⟩

end ChunkWorld
